import Mathlib

/-!
# Verification of `scripts/migrate_metadata.py` (motive-archive-manager)

Shallow embedding of the metadata backfill script.  The script reads car
records from MongoDB, extracts Cloudflare image ids from image URLs,
fetches metadata for ids that have no stored record yet (in batches of
`BATCH_SIZE = 3`, with a `DELAY = 1` second sleep between non-final
batches), and inserts one metadata document per successful fetch.

Modelling conventions:
* `urlparse(url).path` is abstracted as a parameter
  `parsePath : String → Option String` (`none` = the parser raised);
  the library call is external to the repository.
* The HTTP layer is abstracted as a function `fetch : String → ApiResponse`
  from image id to the observed response, so a run is deterministic in the
  sense of the spec's "deterministic metadata source".
* A Python dict of metadata is a `List (String × String)`; Python
  truthiness of a dict is non-emptiness, of an optional value presence.
  The script spreads the metadata keys into the inserted document
  (`{'imageId': image_id, **metadata, 'createdAt': t, 'updatedAt': t}`),
  where a later key overrides an earlier one: a metadata key `imageId`
  therefore OVERRIDES the derived id in the stored document (`storedId`
  models this), while metadata keys `createdAt`/`updatedAt` are themselves
  overridden by the trailing timestamps.
* `time.time()` is a constant `now` of the context (the two timestamps of
  one insert are both "the current time").
* The run is modelled under valid credentials; `get_cloudflare_metadata`
  itself is modelled separately with its credential check (an invalid
  configuration raises out of the first awaited fetch, aborting the run
  before any further write).
* MongoDB collections are lists: `cars` a list of image-URL lists,
  `image_metadata` a list of inserted documents (inserts append; the
  script issues no update or delete operation).
* Python's `list(set(urls))` has unspecified order; it is modelled as
  `List.dedup`, one admissible order.  No claim depends on the order,
  only on membership and multiplicity.
-/

/-- A metadata mapping (Python dict of the Cloudflare `metadata` field). -/
abbrev Metadata := List (String × String)

/-- Python truthiness of an optional string (`not x` is true for `None`
and for the empty string). -/
def truthyStr : Option String → Bool
  | none => false
  | some s => !s.isEmpty

/-- Python truthiness filter on an optional image id: `if not image_id`
skips both `None` and `""`. -/
def truthyId : Option String → Option String
  | none => none
  | some s => if s.isEmpty then none else some s

/-- Python truthiness of an optional metadata dict (`if metadata:` is
false for `None` and for `{}`). -/
def truthyMeta : Option Metadata → Bool
  | none => false
  | some m => !m.isEmpty

/-- `BATCH_SIZE = 3  # Process 3 images at a time` -/
def BATCH_SIZE : Nat := 3

/-- `DELAY = 1  # 1 second delay between batches` -/
def DELAY : Nat := 1

/-- Python `path.split('/')` on the character list: `"".split('/') == ['']`,
every separator opens a new segment, so leading/trailing/doubled `/` give
empty segments.  (A structural recursion is used rather than
`String.splitOn` — which has the same behaviour for this one-character
separator — so that concrete inputs evaluate by kernel reduction.) -/
def splitSegs : List Char → List (List Char)
  | [] => [[]]
  | c :: cs =>
      match splitSegs cs with
      | [] => [[]]
      | seg :: segs => if c = '/' then [] :: seg :: segs else (c :: seg) :: segs

/-- `path.split('/')` as a list of strings. -/
def pathParts (path : String) : List String :=
  (splitSegs path.data).map List.asString

/-- `extract_image_id(url)`:
```
path = urlparse(url).path
parts = path.split('/')
if len(parts) >= 5:
    return parts[4]
... except ... return None
```
`parsePath` stands for `urlparse(url).path` (`none` if it raised; the
`except` clause then returns `None`). -/
def extract_image_id (parsePath : String → Option String) (url : String) :
    Option String :=
  match parsePath url with
  | none => none
  | some path =>
      let parts := pathParts path
      if 5 ≤ parts.length then parts[4]? else none

/-- The response of the Cloudflare Images API for one GET, as observed by
`get_cloudflare_metadata`: HTTP 200 carrying a `success` flag and an
optional `result.metadata` field (absent `result` or absent `metadata`
both give the `{}` default), HTTP 429, any other status, or a transport
exception. -/
inductive ApiResponse where
  | http200 (success : Bool) (metadataField : Option Metadata)
  | http429
  | httpOther (status : Nat)
  | netExn
deriving DecidableEq

/-- Return value of one fetch: the optional metadata (Python return value)
and the seconds slept inside the fetcher (`await asyncio.sleep(5)` on 429). -/
structure FetchReturn where
  value : Option Metadata
  sleptSeconds : Nat
deriving DecidableEq

/-- Response handling of `get_cloudflare_metadata` (the `try` body):
* 200 and truthy `success`: return `data.get('result', {}).get('metadata', {})`
  (so an absent field becomes the empty dict);
* 200 and falsy `success`: fall through, implicit `return None`;
* 429: sleep 5 seconds, return `None`;
* other status or exception: return `None`. -/
def respond : ApiResponse → FetchReturn
  | .http200 success md => if success then ⟨some (md.getD []), 0⟩ else ⟨none, 0⟩
  | .http429 => ⟨none, 5⟩
  | .httpOther _ => ⟨none, 0⟩
  | .netExn => ⟨none, 0⟩

/-- `get_cloudflare_metadata(session, image_id)`: raises `ValueError` when
`not CLOUDFLARE_ACCOUNT_ID or not CLOUDFLARE_API_TOKEN`, before building
the request; otherwise handles the response.  The credentials are the
`os.getenv` results (`none` = variable unset). -/
def get_cloudflare_metadata (acct tok : Option String) (resp : ApiResponse) :
    Except String FetchReturn :=
  if truthyStr acct && truthyStr tok then Except.ok (respond resp)
  else Except.error "Cloudflare credentials not set"

/-- One document of the `image_metadata` collection as inserted by the
script: `{'imageId': image_id, **metadata, 'createdAt': t, 'updatedAt': t}`.
`imageId` holds the EFFECTIVE value of the document's `imageId` key after
the dict-literal override: a metadata key `imageId` wins over the derived
id (see `storedId`); absent that, the derived id, which is recomputed by
`extract_image_id` at insert time and not truthiness-checked there, hence
`Option String`.  `createdAt`/`updatedAt` hold the effective values of
those keys (the trailing timestamps win over any metadata key of the same
name).  `metadata` records the spread mapping itself, which no claim
probes beyond emptiness and its `imageId` key. -/
structure MetaRecord where
  imageId : Option String
  metadata : Metadata
  createdAt : Nat
  updatedAt : Nat
deriving DecidableEq

/-- The ambient context of a run: the URL path parser, the remote API
(keyed by image id) and the clock. -/
structure Ctx where
  parsePath : String → Option String
  fetch : String → ApiResponse
  now : Nat

/-- `db.image_metadata.find_one({'imageId': image_id})` is truthy. -/
def metaExists (meta : List MetaRecord) (id : String) : Bool :=
  meta.any fun r => r.imageId == some id

/-- Value returned by the fetcher for an id (under valid credentials). -/
def fetchValue (ctx : Ctx) (id : String) : Option Metadata :=
  (respond (ctx.fetch id)).value

/-- The truthy image id a URL yields, if any: the value that survives
`image_id = extract_image_id(image_url)` followed by `if not image_id`. -/
def derivedId (ctx : Ctx) (url : String) : Option String :=
  truthyId (extract_image_id ctx.parsePath url)

/-- First loop of `process_batch`: build the `tasks` list.  A URL is
skipped when its id is falsy (`if not image_id: continue`) or when a
record already exists (`if existing: continue`); otherwise its id is
appended.  All existence checks see the store as of batch start: the
inserts of this batch happen only after `asyncio.gather`. -/
def batchTasks (ctx : Ctx) (meta : List MetaRecord) (batch : List String) :
    List String :=
  batch.filterMap fun url =>
    match derivedId ctx url with
    | none => none
    | some id => if metaExists meta id then none else some id

/-- Effective value of the stored document's `imageId` key: in the dict
literal `{'imageId': image_id, **metadata, ...}` a metadata key `imageId`
(unique in a dict, so `lookup` is its value) overrides the derived id. -/
def storedId (m : Metadata) (derived : Option String) : Option String :=
  match m.lookup "imageId" with
  | some v => some v
  | none => derived

/-- Body of the storage loop of `process_batch` for one pair of
`zip(batch, results)`: `if metadata:` then insert
`{'imageId': extract_image_id(image_url), **metadata, 'createdAt', 'updatedAt'}`,
the spread overriding the `imageId` key when metadata carries one. -/
def insertOfPair (ctx : Ctx) (p : String × Option Metadata) : Option MetaRecord :=
  match p.2 with
  | none => none
  | some m =>
      if m.isEmpty then none
      else some ⟨storedId m (extract_image_id ctx.parsePath p.1), m, ctx.now, ctx.now⟩

/-- The documents inserted by one `process_batch` call, in order:
`results = await asyncio.gather(*tasks)` (one fetch per task, in task
order) and then `for image_url, metadata in zip(batch, results)` — note
the zip is over the FULL batch, while `results` is aligned with the
filtered `tasks` list.  `if not tasks: return` inserts nothing. -/
def batchInserts (ctx : Ctx) (meta : List MetaRecord) (batch : List String) :
    List MetaRecord :=
  let tasks := batchTasks ctx meta batch
  if tasks.isEmpty then []
  else
    let results := tasks.map (fetchValue ctx)
    (batch.zip results).filterMap (insertOfPair ctx)

/-- Observable events of a run: one `batchStart` per loop iteration (the
"Processing batch k of n" log), one `fetch` per gathered task (the single
network call the fetcher makes for that id), and one `sleepBetween` per
inter-batch delay. -/
inductive Ev where
  | batchStart (size : Nat)
  | fetch (id : String)
  | sleepBetween (seconds : Nat)
deriving DecidableEq

/-- `process_batch(session, db, batch)`: the updated `image_metadata`
collection and the emitted events. -/
def process_batch (ctx : Ctx) (meta : List MetaRecord) (batch : List String) :
    List MetaRecord × List Ev :=
  (meta ++ batchInserts ctx meta batch,
   Ev.batchStart batch.length :: (batchTasks ctx meta batch).map Ev.fetch)

/-- The driver loop `for i in range(0, len(all_image_urls), BATCH_SIZE)`,
written structurally on the remaining suffix `all_image_urls[i:]`:
`batch = all_image_urls[i:i+3]` is `take 3` of the suffix, the next
iteration sees the suffix `drop 3`, and the inter-batch sleep condition
`i + BATCH_SIZE < len(all_image_urls)` holds exactly when more than
`BATCH_SIZE` URLs remain, i.e. in the last match arm. -/
def migrateLoop (ctx : Ctx) (meta : List MetaRecord) :
    List String → List MetaRecord × List Ev
  | [] => (meta, [])
  | [a] => process_batch ctx meta [a]
  | [a, b] => process_batch ctx meta [a, b]
  | [a, b, c] => process_batch ctx meta [a, b, c]
  | a :: b :: c :: d :: rest =>
      let step := process_batch ctx meta [a, b, c]
      let next := migrateLoop ctx step.1 (d :: rest)
      (next.1, step.2 ++ Ev.sleepBetween DELAY :: next.2)

/-- The database visible to the script: the `cars` collection (each car its
`images` list) and the `image_metadata` collection. -/
structure DB where
  cars : List (List String)
  image_metadata : List MetaRecord

/-- Working set of the driver:
`cars = db.cars.find({'images': {'$exists': True, '$ne': []}})` then
`list(set(url for car in cars for url in car.images))`, modelled with
`dedup` as one admissible set order. -/
def allImageUrls (db : DB) : List String :=
  ((db.cars.filter fun imgs => !imgs.isEmpty).flatten).dedup

/-- `migrate_metadata()`: enumerate the working set, run the batch loop,
return the final database and the event trace.  The `cars` collection is
only read. -/
def migrate_metadata (ctx : Ctx) (db : DB) : DB × List Ev :=
  let r := migrateLoop ctx db.image_metadata (allImageUrls db)
  (⟨db.cars, r.1⟩, r.2)

/-- One full migration run, database to database. -/
def runOnce (ctx : Ctx) (db : DB) : DB :=
  (migrate_metadata ctx db).1

/-- Recognizer for batch-start events. -/
def isBatchEv : Ev → Bool
  | .batchStart _ => true
  | _ => false

/-- Recognizer for inter-batch sleep events. -/
def isSleepEv : Ev → Bool
  | .sleepBetween _ => true
  | _ => false

/-- Recognizer for fetch events of a given image id. -/
def isFetchEv (id : String) : Ev → Bool
  | .fetch j => j == id
  | _ => false

/-! ## Helper lemmas -/

/-- Case analysis following the shape of `migrateLoop`: empty list, a final
batch of 1, 2 or 3 URLs, or a full batch of 3 followed by a non-empty
remainder. -/
theorem batchShapeRec {motive : List String → Prop}
    (h0 : motive []) (h1 : ∀ a, motive [a]) (h2 : ∀ a b, motive [a, b])
    (h3 : ∀ a b c, motive [a, b, c])
    (hstep : ∀ a b c d rest, motive (d :: rest) → motive (a :: b :: c :: d :: rest)) :
    ∀ l, motive l := by
  have key : ∀ n l, List.length l ≤ n → motive l := by
    intro n
    induction n with
    | zero =>
        intro l hl
        match l with
        | [] => exact h0
        | _ :: _ => simp at hl
    | succ n ih =>
        intro l hl
        match l with
        | [] => exact h0
        | [a] => exact h1 a
        | [a, b] => exact h2 a b
        | [a, b, c] => exact h3 a b c
        | a :: b :: c :: d :: rest =>
            refine hstep a b c d rest (ih (d :: rest) ?_)
            simp at hl ⊢
            omega
  exact fun l => key l.length l (Nat.le_refl _)

/-- A task id comes from some URL of the batch that derives it and for
which no record existed at batch start. -/
theorem mem_batchTasks_iff {ctx : Ctx} {meta : List MetaRecord}
    {batch : List String} {id : String} :
    id ∈ batchTasks ctx meta batch ↔
      (∃ url ∈ batch, derivedId ctx url = some id) ∧ metaExists meta id = false := by
  constructor
  · intro h
    simp only [batchTasks, List.mem_filterMap] at h
    obtain ⟨url, hurl, hu⟩ := h
    cases hx : derivedId ctx url with
    | none => rw [hx] at hu; exact absurd hu (by simp)
    | some j =>
        rw [hx] at hu
        by_cases he : metaExists meta j
        · simp [he] at hu
        · simp [he] at hu
          subst hu
          exact ⟨⟨url, hurl, hx⟩, by simpa using he⟩
  · rintro ⟨⟨url, hurl, hx⟩, he⟩
    simp only [batchTasks, List.mem_filterMap]
    exact ⟨url, hurl, by rw [hx]; simp [he]⟩

/-- Every record emitted by `batchInserts` carries a non-empty metadata
mapping (the `if metadata:` truthiness gate). -/
theorem batchInserts_metadata_nonempty (ctx : Ctx) (meta : List MetaRecord)
    (batch : List String) :
    (batchInserts ctx meta batch).all (fun r => !r.metadata.isEmpty) = true := by
  rw [List.all_eq_true]
  intro r hr
  simp only [batchInserts] at hr
  split at hr
  · simp at hr
  · rw [List.mem_filterMap] at hr
    obtain ⟨⟨url, mv⟩, -, hp⟩ := hr
    cases mv with
    | none => exact absurd hp (by simp [insertOfPair])
    | some m =>
        simp only [insertOfPair] at hp
        split at hp
        · exact absurd hp (by simp)
        · cases hp
          simpa using ‹¬m.isEmpty = true›

/-! ## Claims -/

/-- C4: for every URL string, identifier extraction returns exactly the
5th path segment (index 4 of the path split on `/`) when the path has at
least 5 segments, returns nothing when the path has fewer than 5 segments,
and returns nothing when parsing throws (`parsePath url = none`).  The
function is total, so a malformed URL never raises out of it. -/
theorem claim_C4_extract_fifth_segment (parsePath : String → Option String)
    (url : String) :
    (∀ p, parsePath url = some p → 5 ≤ (pathParts p).length →
        extract_image_id parsePath url = (pathParts p)[4]? ∧
        ((pathParts p)[4]?).isSome = true) ∧
    (∀ p, parsePath url = some p → (pathParts p).length < 5 →
        extract_image_id parsePath url = none) ∧
    (parsePath url = none → extract_image_id parsePath url = none) := by
  refine ⟨fun p hp hlen => ⟨?_, ?_⟩, fun p hp hlen => ?_, fun hp => ?_⟩
  · simp [extract_image_id, hp, hlen]
  · rw [List.getElem?_eq_getElem (by omega)]; rfl
  · simp [extract_image_id, hp]
    omega
  · simp [extract_image_id, hp]

/-- Witness for C4 at concrete inputs: a parse yielding a 6-segment path,
a parse yielding a 2-segment path, and a throwing parse. -/
theorem claim_C4_witness :
    (extract_image_id (fun s => some s) "/cdn-cgi/imagedelivery/acct/img7/public"
      = (pathParts "/cdn-cgi/imagedelivery/acct/img7/public")[4]?) ∧
    extract_image_id (fun s => some s) "/a/b" = none ∧
    extract_image_id (fun _ => none) "http://bad" = none :=
  ⟨((claim_C4_extract_fifth_segment (fun s => some s) _).1 _ rfl (by decide)).1,
   (claim_C4_extract_fifth_segment (fun s => some s) _).2.1 _ rfl (by decide),
   (claim_C4_extract_fifth_segment (fun _ => none) _).2.2 rfl⟩

/-- C8 counterexample: the account variable is SET (to the empty string)
and the token is set to a non-empty string, yet the fetcher raises — the
claim's "if both are set, the Fetcher never raises for configuration
reasons" is false, because the code tests Python truthiness
(`not CLOUDFLARE_ACCOUNT_ID`), not unset-ness. -/
theorem claim_C8_counterexample :
    get_cloudflare_metadata (some "") (some "tok") ApiResponse.http429
      = Except.error "Cloudflare credentials not set" := rfl

/-- C8 (amended): if the account id or the API token is unset OR empty,
every invocation of the fetcher raises, uniformly in the response (i.e.
before any network call can matter); if both are set to non-empty strings,
the fetcher never raises and just handles the response. -/
theorem claim_C8_credential_gate (acct tok : Option String) :
    ((truthyStr acct && truthyStr tok) = false →
        ∀ resp, get_cloudflare_metadata acct tok resp
          = Except.error "Cloudflare credentials not set") ∧
    ((truthyStr acct && truthyStr tok) = true →
        ∀ resp, get_cloudflare_metadata acct tok resp
          = Except.ok (respond resp)) := by
  constructor <;> intro h resp <;> simp [get_cloudflare_metadata, h]

/-- Witness for C8: unset account raises for any response; non-empty
credentials give the handled response. -/
theorem claim_C8_witness :
    get_cloudflare_metadata none (some "tok") ApiResponse.http429
      = Except.error "Cloudflare credentials not set" ∧
    get_cloudflare_metadata (some "acct") (some "tok") ApiResponse.http429
      = Except.ok (respond ApiResponse.http429) :=
  ⟨(claim_C8_credential_gate none (some "tok")).1 (by decide) _,
   (claim_C8_credential_gate (some "acct") (some "tok")).2 (by decide) _⟩

/-- C7: if a record for an identifier already exists in the store when its
batch runs, the Fetcher is never invoked for that identifier during the
batch — no fetch event for it is emitted, the existence check
short-circuits before any task is created. -/
theorem claim_C7_existing_never_fetched (ctx : Ctx) (meta : List MetaRecord)
    (batch : List String) (id : String) (h : metaExists meta id = true) :
    Ev.fetch id ∉ (process_batch ctx meta batch).2 := by
  intro hmem
  simp only [process_batch, List.mem_cons] at hmem
  rcases hmem with h1 | h2
  · exact Ev.noConfusion h1
  · rw [List.mem_map] at h2
    obtain ⟨j, hj, hje⟩ := h2
    cases hje
    rw [(mem_batchTasks_iff.mp hj).2] at h
    exact Bool.noConfusion h

/-- Witness for C7: a store holding id `A`, a batch whose URL derives `A`. -/
theorem claim_C7_witness :
    Ev.fetch "A" ∉
      (process_batch ⟨fun u => some u, fun _ => ApiResponse.http429, 0⟩
        [⟨some "A", [("k", "v")], 0, 0⟩] ["/c/i/a/A/x"]).2 :=
  claim_C7_existing_never_fetched _ _ _ _ (by decide)

/-- C10: on HTTP 200 with `success` true and no `result.metadata` field
the fetcher returns the empty mapping (not nothing); a pair carrying an
empty mapping is never inserted by the storage loop; consequently every
record a batch inserts has a non-empty metadata mapping. -/
theorem claim_C10_empty_mapping_not_inserted (ctx : Ctx) :
    get_cloudflare_metadata (some "acct") (some "tok")
        (ApiResponse.http200 true none) = Except.ok ⟨some [], 0⟩ ∧
    (∀ url, insertOfPair ctx (url, some ([] : Metadata)) = none) ∧
    ∀ meta batch,
      (batchInserts ctx meta batch).all (fun r => !r.metadata.isEmpty) = true :=
  ⟨rfl, fun _ => rfl, fun meta batch => batchInserts_metadata_nonempty ctx meta batch⟩

/-- C1 is false of the code (`failing_input` evaluation): batch
`[/c/i/a/A/x, /c/i/a/B/x]` where id `A` already has a record and the fetch
of `B` succeeds with `width=800`.  Only `B` is fetched (one task), yet
`zip(batch, results)` pairs `B`'s result with the FIRST batch URL, so the
successful result is inserted under identifier `A` — the identifier of a
skipped URL — and `B` gets no record at all. -/
theorem claim_C1_misaligned_persist :
    process_batch
      ⟨fun u => some u,
       fun id => if id == "B" then ApiResponse.http200 true (some [("width", "800")])
                 else ApiResponse.httpOther 500,
       100⟩
      [⟨some "A", [("k", "v")], 0, 0⟩]
      ["/c/i/a/A/x", "/c/i/a/B/x"]
    = ([⟨some "A", [("k", "v")], 0, 0⟩,
        ⟨some "A", [("width", "800")], 100, 100⟩],
       [Ev.batchStart 2, Ev.fetch "B"]) := by decide

/-- C2 is false of the code (`failing_input` evaluation): batch
`[/x, /c/i/a/D/x]` where `/x` yields no identifier (skipped, never
fetched) and the fetch of `D` succeeds.  Exactly one fetch is issued (for
`D`), but the batch inserts a record positionally belonging to `/x` — a
URL whose own fetch never happened — with `imageId` null, while `D`,
whose fetch returned metadata, gets no record. -/
theorem claim_C2_record_for_unfetched_url :
    process_batch
      ⟨fun u => some u,
       fun id => if id == "D" then ApiResponse.http200 true (some [("h", "1")])
                 else ApiResponse.httpOther 500,
       42⟩
      [] ["/x", "/c/i/a/D/x"]
    = ([⟨none, [("h", "1")], 42, 42⟩], [Ev.batchStart 2, Ev.fetch "D"]) := by decide

/-- C3 counterexample: two distinct URLs of the same dataset derive the
same identifier `A` (two delivery variants of one image).  Both pass the
existence check of the same batch before any insert, so the FIRST run
already inserts two records for `A`; running the migration twice leaves
two records for identifier `A`, not one. -/
theorem claim_C3_counterexample :
    ((runOnce
        ⟨fun u => some u, fun _ => ApiResponse.http200 true (some [("k", "v")]), 7⟩
        (runOnce
          ⟨fun u => some u, fun _ => ApiResponse.http200 true (some [("k", "v")]), 7⟩
          ⟨[["/c/i/a/A/x", "/c/i/a/A/y"]], []⟩)).image_metadata).countP
      (fun r => r.imageId == some "A") = 2 := by decide

/-- Inversion: a truthy derived id is exactly what `extract_image_id`
returned. -/
theorem derivedId_some {ctx : Ctx} {u id : String}
    (h : derivedId ctx u = some id) :
    extract_image_id ctx.parsePath u = some id := by
  simp only [derivedId] at h
  cases he : extract_image_id ctx.parsePath u with
  | none => rw [he] at h; exact Option.noConfusion h
  | some s =>
      rw [he] at h
      simp only [truthyId] at h
      by_cases hs : s.isEmpty
      · rw [if_pos hs] at h; exact Option.noConfusion h
      · rw [if_neg hs] at h; exact h

/-- A record exists for an id iff `some id` occurs among the stored
`imageId` fields. -/
theorem metaExists_iff_mem_map {meta : List MetaRecord} {id : String} :
    metaExists meta id = true ↔ some id ∈ meta.map (fun r => r.imageId) := by
  simp only [metaExists, List.any_eq_true, List.mem_map, beq_iff_eq]

/-- The existence check distributes over an appended store. -/
theorem metaExists_append (l1 l2 : List MetaRecord) (id : String) :
    metaExists (l1 ++ l2) id = (metaExists l1 id || metaExists l2 id) :=
  List.any_append

/-- The final `meta` of the batch loop extends its initial `meta` — every
storage write of the run is an insert of a new record. -/
theorem migrateLoop_meta_append (ctx : Ctx) :
    ∀ l meta, ∃ tail, (migrateLoop ctx meta l).1 = meta ++ tail := by
  intro l
  induction l using batchShapeRec with
  | h0 => exact fun meta => ⟨[], by simp [migrateLoop]⟩
  | h1 a => exact fun meta => ⟨batchInserts ctx meta [a], rfl⟩
  | h2 a b => exact fun meta => ⟨batchInserts ctx meta [a, b], rfl⟩
  | h3 a b c => exact fun meta => ⟨batchInserts ctx meta [a, b, c], rfl⟩
  | hstep a b c d rest ih =>
      intro meta
      obtain ⟨t, ht⟩ := ih ((process_batch ctx meta [a, b, c]).1)
      refine ⟨batchInserts ctx meta [a, b, c] ++ t, ?_⟩
      show (migrateLoop ctx ((process_batch ctx meta [a, b, c]).1) (d :: rest)).1 = _
      rw [ht]
      simp [process_batch]

/-- Counting over a list of fetch events. -/
theorem countP_map_fetch (p : Ev → Bool) (l : List String) :
    (l.map Ev.fetch).countP p = l.countP (fun j => p (Ev.fetch j)) := by
  induction l with
  | nil => rfl
  | cons x xs ih => simp [List.countP_cons, ih]

/-- Event counts of one batch: one batch-start, no sleep, one fetch per
task. -/
theorem process_batch_eventCounts (ctx : Ctx) (meta : List MetaRecord)
    (batch : List String) :
    ((process_batch ctx meta batch).2.countP isBatchEv = 1) ∧
    ((process_batch ctx meta batch).2.countP isSleepEv = 0) ∧
    (∀ id, (process_batch ctx meta batch).2.countP (isFetchEv id)
        = (batchTasks ctx meta batch).countP (fun j => j == id)) := by
  refine ⟨?_, ?_, fun id => ?_⟩ <;>
    rw [show (process_batch ctx meta batch).2
          = Ev.batchStart batch.length :: (batchTasks ctx meta batch).map Ev.fetch
        from rfl, List.countP_cons, countP_map_fetch]
  · simp [isBatchEv]
  · simp [isSleepEv]
  · simp [isFetchEv]

/-- `batchTasks` on a URL without a truthy id. -/
theorem batchTasks_cons_none {ctx : Ctx} {meta : List MetaRecord}
    {u : String} {rest : List String} (hx : derivedId ctx u = none) :
    batchTasks ctx meta (u :: rest) = batchTasks ctx meta rest := by
  simp [batchTasks, List.filterMap_cons, hx]

/-- `batchTasks` on a URL whose id already has a record. -/
theorem batchTasks_cons_skip {ctx : Ctx} {meta : List MetaRecord}
    {u j : String} {rest : List String} (hx : derivedId ctx u = some j)
    (he : metaExists meta j = true) :
    batchTasks ctx meta (u :: rest) = batchTasks ctx meta rest := by
  simp [batchTasks, List.filterMap_cons, hx, he]

/-- `batchTasks` on a URL that survives both checks. -/
theorem batchTasks_cons_task {ctx : Ctx} {meta : List MetaRecord}
    {u j : String} {rest : List String} (hx : derivedId ctx u = some j)
    (he : metaExists meta j = false) :
    batchTasks ctx meta (u :: rest) = j :: batchTasks ctx meta rest := by
  simp [batchTasks, List.filterMap_cons, hx, he]

/-- Per batch, the number of tasks fetching `id` is at most the number of
batch URLs deriving `id`. -/
theorem countP_batchTasks_le (ctx : Ctx) (meta : List MetaRecord) (id : String) :
    ∀ batch : List String,
      (batchTasks ctx meta batch).countP (fun j => j == id)
        ≤ batch.countP (fun u => derivedId ctx u == some id) := by
  intro batch
  induction batch with
  | nil => simp [batchTasks]
  | cons u rest ih =>
      rw [List.countP_cons]
      cases hx : derivedId ctx u with
      | none =>
          rw [batchTasks_cons_none hx]
          exact Nat.le_add_right_of_le ih
      | some j =>
          by_cases he : metaExists meta j
          · rw [batchTasks_cons_skip hx he]
            exact Nat.le_add_right_of_le ih
          · rw [batchTasks_cons_task hx (by simpa using he), List.countP_cons]
            by_cases hj : j = id
            · subst hj
              simp only [beq_self_eq_true, if_true]
              omega
            · have h1 : ((j == id) = false) := by simp [hj]
              have h2 : ((some j == some id) = false) := by simp [hj]
              rw [h1, h2]
              simp
              omega

/-- Across a whole run, the number of fetches of an id is bounded by the
number of working-set URLs that derive this id: no URL is ever fetched a
second time within a run. -/
theorem migrateLoop_fetchCount_le (ctx : Ctx) (id : String) :
    ∀ l meta,
      (migrateLoop ctx meta l).2.countP (isFetchEv id)
        ≤ l.countP (fun u => derivedId ctx u == some id) := by
  intro l
  induction l using batchShapeRec with
  | h0 => intro meta; simp [migrateLoop]
  | h1 a =>
      intro meta
      rw [show (migrateLoop ctx meta [a]).2 = (process_batch ctx meta [a]).2 from rfl,
        (process_batch_eventCounts ctx meta [a]).2.2 id]
      exact countP_batchTasks_le ctx meta id [a]
  | h2 a b =>
      intro meta
      rw [show (migrateLoop ctx meta [a, b]).2 = (process_batch ctx meta [a, b]).2 from rfl,
        (process_batch_eventCounts ctx meta [a, b]).2.2 id]
      exact countP_batchTasks_le ctx meta id [a, b]
  | h3 a b c =>
      intro meta
      rw [show (migrateLoop ctx meta [a, b, c]).2 = (process_batch ctx meta [a, b, c]).2
          from rfl,
        (process_batch_eventCounts ctx meta [a, b, c]).2.2 id]
      exact countP_batchTasks_le ctx meta id [a, b, c]
  | hstep a b c d rest ih =>
      intro meta
      rw [show (migrateLoop ctx meta (a :: b :: c :: d :: rest)).2
            = (process_batch ctx meta [a, b, c]).2
              ++ Ev.sleepBetween DELAY
                 :: (migrateLoop ctx ((process_batch ctx meta [a, b, c]).1) (d :: rest)).2
          from rfl,
        List.countP_append, List.countP_cons,
        (process_batch_eventCounts ctx meta [a, b, c]).2.2 id]
      have h1 := countP_batchTasks_le ctx meta id [a, b, c]
      have h2 := ih ((process_batch ctx meta [a, b, c]).1)
      have h3 : (isFetchEv id (Ev.sleepBetween DELAY)) = false := rfl
      rw [h3]
      have h4 : (a :: b :: c :: d :: rest).countP (fun u => derivedId ctx u == some id)
          = ([a, b, c].countP (fun u => derivedId ctx u == some id)
             + (d :: rest).countP (fun u => derivedId ctx u == some id)) := by
        rw [show (a :: b :: c :: d :: rest) = [a, b, c] ++ (d :: rest) from rfl,
          List.countP_append]
      rw [h4, show (if false = true then 1 else 0) = 0 from rfl]
      omega

/-- At least one batch-start event is emitted for a non-empty URL list. -/
theorem migrateLoop_batchCount_pos (ctx : Ctx) :
    ∀ l, l ≠ [] → ∀ meta,
      1 ≤ (migrateLoop ctx meta l).2.countP isBatchEv := by
  intro l
  induction l using batchShapeRec with
  | h0 => intro h; exact absurd rfl h
  | h1 a =>
      intro _ meta
      rw [show (migrateLoop ctx meta [a]).2 = (process_batch ctx meta [a]).2 from rfl,
        (process_batch_eventCounts ctx meta [a]).1]
  | h2 a b =>
      intro _ meta
      rw [show (migrateLoop ctx meta [a, b]).2 = (process_batch ctx meta [a, b]).2 from rfl,
        (process_batch_eventCounts ctx meta [a, b]).1]
  | h3 a b c =>
      intro _ meta
      rw [show (migrateLoop ctx meta [a, b, c]).2 = (process_batch ctx meta [a, b, c]).2
          from rfl,
        (process_batch_eventCounts ctx meta [a, b, c]).1]
  | hstep a b c d rest _ =>
      intro _ meta
      rw [show (migrateLoop ctx meta (a :: b :: c :: d :: rest)).2
            = (process_batch ctx meta [a, b, c]).2
              ++ Ev.sleepBetween DELAY
                 :: (migrateLoop ctx ((process_batch ctx meta [a, b, c]).1) (d :: rest)).2
          from rfl,
        List.countP_append, (process_batch_eventCounts ctx meta [a, b, c]).1]
      omega

/-- Inter-batch sleeps number exactly one less than batches (with `Nat`
subtraction covering the empty run): the delay is taken after every
non-final batch only. -/
theorem migrateLoop_sleepCount (ctx : Ctx) :
    ∀ l meta,
      (migrateLoop ctx meta l).2.countP isSleepEv
        = (migrateLoop ctx meta l).2.countP isBatchEv - 1 := by
  intro l
  induction l using batchShapeRec with
  | h0 => intro meta; simp [migrateLoop]
  | h1 a =>
      intro meta
      rw [show (migrateLoop ctx meta [a]).2 = (process_batch ctx meta [a]).2 from rfl,
        (process_batch_eventCounts ctx meta [a]).1,
        (process_batch_eventCounts ctx meta [a]).2.1]
  | h2 a b =>
      intro meta
      rw [show (migrateLoop ctx meta [a, b]).2 = (process_batch ctx meta [a, b]).2 from rfl,
        (process_batch_eventCounts ctx meta [a, b]).1,
        (process_batch_eventCounts ctx meta [a, b]).2.1]
  | h3 a b c =>
      intro meta
      rw [show (migrateLoop ctx meta [a, b, c]).2 = (process_batch ctx meta [a, b, c]).2
          from rfl,
        (process_batch_eventCounts ctx meta [a, b, c]).1,
        (process_batch_eventCounts ctx meta [a, b, c]).2.1]
  | hstep a b c d rest ih =>
      intro meta
      have hpos := migrateLoop_batchCount_pos ctx (d :: rest) (by simp)
        ((process_batch ctx meta [a, b, c]).1)
      have hih := ih ((process_batch ctx meta [a, b, c]).1)
      rw [show (migrateLoop ctx meta (a :: b :: c :: d :: rest)).2
            = (process_batch ctx meta [a, b, c]).2
              ++ Ev.sleepBetween DELAY
                 :: (migrateLoop ctx ((process_batch ctx meta [a, b, c]).1) (d :: rest)).2
          from rfl,
        List.countP_append, List.countP_append, List.countP_cons, List.countP_cons,
        (process_batch_eventCounts ctx meta [a, b, c]).1,
        (process_batch_eventCounts ctx meta [a, b, c]).2.1,
        show (isSleepEv (Ev.sleepBetween DELAY)) = true from rfl,
        show (isBatchEv (Ev.sleepBetween DELAY)) = false from rfl,
        show (if true = true then 1 else 0) = 1 from rfl,
        show (if false = true then 1 else 0) = 0 from rfl]
      omega

/-- C5: on HTTP 429 the fetcher sleeps 5 seconds and returns nothing; the
working set lists every URL at most once, and over a whole run the number
of fetches of any id never exceeds the number of working-set URLs that
derive it — so the URL of a rate-limited image is not fetched again within
the run (no in-run retry by the batch processor or the driver). -/
theorem claim_C5_429_sleeps_no_retry :
    respond ApiResponse.http429 = ⟨none, 5⟩ ∧
    (∀ db : DB, ∀ u : String, (allImageUrls db).count u ≤ 1) ∧
    (∀ ctx : Ctx, ∀ db : DB, ∀ id : String,
      (migrate_metadata ctx db).2.countP (isFetchEv id)
        ≤ (allImageUrls db).countP (fun u => derivedId ctx u == some id)) := by
  refine ⟨rfl, fun db u => ?_, fun ctx db id => ?_⟩
  · exact List.nodup_iff_count_le_one.mp (List.nodup_dedup _) u
  · exact migrateLoop_fetchCount_le ctx id (allImageUrls db) db.image_metadata

/-- C6: a dataset of 7 unique image URLs is processed as consecutive
batches of sizes 3, 3, 1 with the 1-second delay after the first and
second batches and none after the final one (the concrete trace shows the
positions); in general the number of inter-batch delays of any run is the
number of batches minus one. -/
theorem claim_C6_batch_sizes_and_delays :
    (migrate_metadata ⟨fun _ => none, fun _ => ApiResponse.http429, 0⟩
        ⟨[["u1", "u2", "u3", "u4", "u5", "u6", "u7"]], []⟩).2
      = [Ev.batchStart 3, Ev.sleepBetween DELAY, Ev.batchStart 3,
         Ev.sleepBetween DELAY, Ev.batchStart 1] ∧
    ∀ ctx : Ctx, ∀ db : DB,
      (migrate_metadata ctx db).2.countP isSleepEv
        = (migrate_metadata ctx db).2.countP isBatchEv - 1 := by
  refine ⟨by decide, fun ctx db => ?_⟩
  exact migrateLoop_sleepCount ctx (allImageUrls db) db.image_metadata

/-- C9: a migration run only inserts: the `cars` collection is returned
unmodified, and the `image_metadata` collection after the run is the
pre-run collection extended by the newly inserted records — no
pre-existing metadata record is updated or deleted. -/
theorem claim_C9_run_only_inserts (ctx : Ctx) (db : DB) :
    (runOnce ctx db).cars = db.cars ∧
    ∃ tail, (runOnce ctx db).image_metadata = db.image_metadata ++ tail :=
  ⟨rfl, migrateLoop_meta_append ctx (allImageUrls db) db.image_metadata⟩

/-- The early return for an empty task list coincides with zipping against
the empty result list. -/
theorem batchInserts_eq_zip (ctx : Ctx) (meta : List MetaRecord)
    (batch : List String) :
    batchInserts ctx meta batch
      = (batch.zip ((batchTasks ctx meta batch).map (fetchValue ctx))).filterMap
          (insertOfPair ctx) := by
  simp only [batchInserts]
  split
  · next h =>
      rw [List.isEmpty_iff.mp h]
      simp
  · rfl

/-- When no URL of a batch is skipped and every fetch returns non-empty
metadata carrying no `imageId` key (which would override the derived key
in the stored document), the zip realigns perfectly: one record per URL,
in order, keyed by that URL's own extracted id. -/
theorem batchInserts_fresh_aligned (ctx : Ctx)
    (hfetch : ∀ id, truthyMeta (fetchValue ctx id) = true)
    (hnokey : ∀ id, ((fetchValue ctx id).getD []).lookup "imageId" = none)
    (meta : List MetaRecord) :
    ∀ batch : List String,
      (∀ u ∈ batch, derivedId ctx u ≠ none) →
      (∀ u ∈ batch, ∀ id, derivedId ctx u = some id → metaExists meta id = false) →
      (batchInserts ctx meta batch).map (fun r => r.imageId)
        = batch.map (derivedId ctx) := by
  intro batch
  induction batch with
  | nil => intro _ _; simp [batchInserts, batchTasks]
  | cons u rest ih =>
      intro hids hnew
      rw [batchInserts_eq_zip]
      cases hx : derivedId ctx u with
      | none => exact absurd hx (hids u (List.mem_cons_self u rest))
      | some id =>
          have hex : metaExists meta id = false := hnew u (List.mem_cons_self u rest) id hx
          have hm := hfetch id
          obtain ⟨m, hmv, hme⟩ : ∃ m, fetchValue ctx id = some m ∧ m.isEmpty = false := by
            cases hv : fetchValue ctx id with
            | none => rw [hv] at hm; exact absurd hm (by simp [truthyMeta])
            | some m =>
                rw [hv] at hm
                refine ⟨m, rfl, ?_⟩
                simpa [truthyMeta] using hm
          have hlk : m.lookup "imageId" = none := by
            have h' := hnokey id
            rw [hmv] at h'
            exact h'
          have hpair : insertOfPair ctx (u, fetchValue ctx id)
              = some ⟨extract_image_id ctx.parsePath u, m, ctx.now, ctx.now⟩ := by
            simp [insertOfPair, hmv, hme, storedId, hlk]
          rw [batchTasks_cons_task hx hex]
          simp only [List.map_cons, List.zip_cons_cons, List.filterMap_cons, hpair]
          congr 1
          · rw [derivedId_some hx, hx]
          · rw [← batchInserts_eq_zip]
            exact ih (fun v hv => hids v (List.mem_cons_of_mem u hv))
              (fun v hv => hnew v (List.mem_cons_of_mem u hv))

/-- First run on a fresh store: when every working-set URL derives a
distinct truthy id none of which has a record yet, and every fetch returns
non-empty metadata without an `imageId` key, the loop appends exactly one
record per URL in order, keyed by that URL's id. -/
theorem migrateLoop_fresh (ctx : Ctx)
    (hfetch : ∀ id, truthyMeta (fetchValue ctx id) = true)
    (hnokey : ∀ id, ((fetchValue ctx id).getD []).lookup "imageId" = none) :
    ∀ l, (∀ u ∈ l, derivedId ctx u ≠ none) →
      (l.map (derivedId ctx)).Nodup →
      ∀ meta, (∀ u ∈ l, ∀ id, derivedId ctx u = some id → metaExists meta id = false) →
      ∃ recs, (migrateLoop ctx meta l).1 = meta ++ recs ∧
        recs.map (fun r => r.imageId) = l.map (derivedId ctx) := by
  intro l
  induction l using batchShapeRec with
  | h0 => exact fun _ _ meta _ => ⟨[], by simp [migrateLoop], by simp⟩
  | h1 a =>
      exact fun hids _ meta hnew =>
        ⟨batchInserts ctx meta [a], rfl,
         batchInserts_fresh_aligned ctx hfetch hnokey meta [a] hids hnew⟩
  | h2 a b =>
      exact fun hids _ meta hnew =>
        ⟨batchInserts ctx meta [a, b], rfl,
         batchInserts_fresh_aligned ctx hfetch hnokey meta [a, b] hids hnew⟩
  | h3 a b c =>
      exact fun hids _ meta hnew =>
        ⟨batchInserts ctx meta [a, b, c], rfl,
         batchInserts_fresh_aligned ctx hfetch hnokey meta [a, b, c] hids hnew⟩
  | hstep a b c d rest ih =>
      intro hids hnd meta hnew
      have hsub3 : ∀ u ∈ [a, b, c], u ∈ a :: b :: c :: d :: rest := by
        intro u hu
        simp only [List.mem_cons] at hu ⊢
        tauto
      have hsubt : ∀ u ∈ d :: rest, u ∈ a :: b :: c :: d :: rest := by
        intro u hu
        simp only [List.mem_cons] at hu ⊢
        tauto
      have hrecs1 : (batchInserts ctx meta [a, b, c]).map (fun r => r.imageId)
          = [a, b, c].map (derivedId ctx) :=
        batchInserts_fresh_aligned ctx hfetch hnokey meta [a, b, c]
          (fun u hu => hids u (hsub3 u hu))
          (fun u hu => hnew u (hsub3 u hu))
      simp only [List.map_cons] at hnd
      rcases List.nodup_cons.mp hnd with ⟨hA, hnd1⟩
      rcases List.nodup_cons.mp hnd1 with ⟨hB, hnd2⟩
      rcases List.nodup_cons.mp hnd2 with ⟨hC, hndt⟩
      have hne : ∀ u ∈ (d :: rest), ∀ id, derivedId ctx u = some id →
          metaExists ((process_batch ctx meta [a, b, c]).1) id = false := by
        intro u hu id hx
        show metaExists (meta ++ batchInserts ctx meta [a, b, c]) id = false
        rw [metaExists_append, hnew u (hsubt u hu) id hx, Bool.false_or]
        cases hb : metaExists (batchInserts ctx meta [a, b, c]) id
        · rfl
        · exfalso
          have hmem := metaExists_iff_mem_map.mp hb
          rw [hrecs1] at hmem
          have hmem2 : derivedId ctx u ∈ (d :: rest).map (derivedId ctx) :=
            List.mem_map_of_mem _ hu
          rw [hx] at hmem2
          simp only [List.map_cons, List.map_nil, List.mem_cons,
            List.not_mem_nil, or_false] at hmem
          rcases hmem with h | h | h
          · rw [h] at hmem2
            exact hA (List.mem_cons_of_mem _ (List.mem_cons_of_mem _ hmem2))
          · rw [h] at hmem2
            exact hB (List.mem_cons_of_mem _ hmem2)
          · rw [h] at hmem2
            exact hC hmem2
      obtain ⟨recs2, h1, h2⟩ := ih (fun u hu => hids u (hsubt u hu)) hndt
        ((process_batch ctx meta [a, b, c]).1) hne
      refine ⟨batchInserts ctx meta [a, b, c] ++ recs2, ?_, ?_⟩
      · show (migrateLoop ctx ((process_batch ctx meta [a, b, c]).1) (d :: rest)).1 = _
        rw [h1]
        show meta ++ batchInserts ctx meta [a, b, c] ++ recs2 = _
        rw [List.append_assoc]
      · rw [List.map_append, hrecs1, h2]
        rfl

/-- When every URL's truthy id already has a record, no task is created. -/
theorem batchTasks_eq_nil (ctx : Ctx) (meta : List MetaRecord) :
    ∀ batch : List String,
      (∀ u ∈ batch, ∀ id, derivedId ctx u = some id → metaExists meta id = true) →
      batchTasks ctx meta batch = [] := by
  intro batch
  induction batch with
  | nil => intro _; rfl
  | cons u rest ih =>
      intro h
      cases hx : derivedId ctx u with
      | none =>
          rw [batchTasks_cons_none hx]
          exact ih fun v hv => h v (List.mem_cons_of_mem u hv)
      | some j =>
          rw [batchTasks_cons_skip hx (h u (List.mem_cons_self u rest) j hx)]
          exact ih fun v hv => h v (List.mem_cons_of_mem u hv)

/-- A batch with no tasks inserts nothing. -/
theorem process_batch_noop (ctx : Ctx) (meta : List MetaRecord)
    (batch : List String) (h : batchTasks ctx meta batch = []) :
    (process_batch ctx meta batch).1 = meta := by
  show meta ++ batchInserts ctx meta batch = meta
  rw [batchInserts_eq_zip, h]
  simp

/-- Second run: when every working-set URL's truthy id already has a
record, the loop leaves the store untouched. -/
theorem migrateLoop_allExisting (ctx : Ctx) :
    ∀ l meta,
      (∀ u ∈ l, ∀ id, derivedId ctx u = some id → metaExists meta id = true) →
      (migrateLoop ctx meta l).1 = meta := by
  intro l
  induction l using batchShapeRec with
  | h0 => intro meta _; rfl
  | h1 a =>
      intro meta h
      exact process_batch_noop ctx meta [a] (batchTasks_eq_nil ctx meta [a] h)
  | h2 a b =>
      intro meta h
      exact process_batch_noop ctx meta [a, b] (batchTasks_eq_nil ctx meta [a, b] h)
  | h3 a b c =>
      intro meta h
      exact process_batch_noop ctx meta [a, b, c] (batchTasks_eq_nil ctx meta [a, b, c] h)
  | hstep a b c d rest ih =>
      intro meta h
      have hb : (process_batch ctx meta [a, b, c]).1 = meta :=
        process_batch_noop ctx meta [a, b, c]
          (batchTasks_eq_nil ctx meta [a, b, c] fun u hu => h u (by
            simp only [List.mem_cons] at hu ⊢; tauto))
      show (migrateLoop ctx ((process_batch ctx meta [a, b, c]).1) (d :: rest)).1 = meta
      rw [hb]
      exact ih meta fun u hu => h u (by simp only [List.mem_cons] at hu ⊢; tauto)

/-- Counting hits of a `==` test in a duplicate-free list is membership. -/
theorem countP_beq_of_nodup {α : Type} [BEq α] [LawfulBEq α] :
    ∀ l : List α, l.Nodup → ∀ a : α,
      l.countP (fun x => x == a) = if a ∈ l then 1 else 0 := by
  intro l
  induction l with
  | nil => intro _ a; simp
  | cons x t iht =>
      intro h a
      rcases List.nodup_cons.mp h with ⟨hx, ht⟩
      rw [List.countP_cons, iht ht a]
      by_cases hax : x = a
      · subst hax
        simp [hx]
      · have h1 : ((x == a) = false) := by simp [hax]
        have h2 : (a ∈ x :: t) ↔ a ∈ t := by
          constructor
          · intro hm
            rcases List.mem_cons.mp hm with h' | h'
            · exact absurd h'.symm hax
            · exact h'
          · exact fun hm => List.mem_cons_of_mem x hm
        rw [h1]
        simp [h2]

/-- `countP` of a projection test through `map`. -/
theorem countP_imageId_map (id : String) :
    ∀ recs : List MetaRecord,
      recs.countP (fun r => r.imageId == some id)
        = (recs.map (fun r => r.imageId)).countP (fun x => x == some id) := by
  intro recs
  induction recs with
  | nil => rfl
  | cons r t iht => simp [List.countP_cons, iht]

/-- C3 (amended): the double run is idempotent with exactly one record per
identifier PROVIDED every working-set URL yields a truthy identifier,
distinct URLs yield distinct identifiers, the metadata store starts empty,
and the deterministic source returns, for every identifier, non-empty
metadata that carries no `imageId` key.  (Without these provisos the claim
fails: the counterexample shows two URL variants of one image giving two
records, and a metadata key `imageId` would override the derived key in
the stored document, making the second run's existence check miss.) -/
theorem claim_C3_idempotent_unique_ids (ctx : Ctx) (db : DB)
    (hids : ∀ u ∈ allImageUrls db, derivedId ctx u ≠ none)
    (hnodup : ((allImageUrls db).map (derivedId ctx)).Nodup)
    (hempty : db.image_metadata = [])
    (hfetch : ∀ id, truthyMeta (fetchValue ctx id) = true)
    (hnokey : ∀ id, ((fetchValue ctx id).getD []).lookup "imageId" = none) :
    ∀ id : String,
      (some id ∈ (allImageUrls db).map (derivedId ctx) →
        ((runOnce ctx (runOnce ctx db)).image_metadata).countP
          (fun r => r.imageId == some id) = 1) ∧
      (some id ∉ (allImageUrls db).map (derivedId ctx) →
        ((runOnce ctx (runOnce ctx db)).image_metadata).countP
          (fun r => r.imageId == some id) = 0) := by
  intro id
  obtain ⟨recs, h1, h2⟩ := migrateLoop_fresh ctx hfetch hnokey (allImageUrls db) hids
    hnodup db.image_metadata (by intro u _ i _; rw [hempty]; rfl)
  have hrun1 : (runOnce ctx db).image_metadata = db.image_metadata ++ recs := h1
  have hall : ∀ u ∈ allImageUrls db, ∀ i, derivedId ctx u = some i →
      metaExists ((runOnce ctx db).image_metadata) i = true := by
    intro u hu i hx
    rw [hrun1, hempty, List.nil_append]
    apply metaExists_iff_mem_map.mpr
    rw [h2]
    exact hx ▸ List.mem_map_of_mem _ hu
  have hrun2 : (runOnce ctx (runOnce ctx db)).image_metadata
      = (runOnce ctx db).image_metadata := by
    show (migrateLoop ctx ((runOnce ctx db).image_metadata)
        (allImageUrls (runOnce ctx db))).1 = _
    exact migrateLoop_allExisting ctx (allImageUrls db) _ hall
  have hcnt : recs.countP (fun r => r.imageId == some id)
      = if some id ∈ (allImageUrls db).map (derivedId ctx) then 1 else 0 := by
    rw [countP_imageId_map, h2]
    exact countP_beq_of_nodup _ hnodup (some id)
  rw [hrun2, hrun1, hempty, List.nil_append]
  constructor
  · intro hmem
    rw [hcnt, if_pos hmem]
  · intro hnmem
    rw [hcnt, if_neg hnmem]

/-- Witness for the amended C3: two URLs with distinct ids `A`, `B`, a
source answering non-empty metadata without an `imageId` key; after two
runs identifier `A` has exactly one record. -/
theorem claim_C3_witness :
    ((runOnce
        ⟨fun u => some u, fun _ => ApiResponse.http200 true (some [("k", "v")]), 9⟩
        (runOnce
          ⟨fun u => some u, fun _ => ApiResponse.http200 true (some [("k", "v")]), 9⟩
          ⟨[["/c/i/a/A/x", "/c/i/a/B/x"]], []⟩)).image_metadata).countP
      (fun r => r.imageId == some "A") = 1 :=
  (claim_C3_idempotent_unique_ids
    ⟨fun u => some u, fun _ => ApiResponse.http200 true (some [("k", "v")]), 9⟩
    ⟨[["/c/i/a/A/x", "/c/i/a/B/x"]], []⟩
    (by decide) (by decide) rfl (fun _ => rfl) (fun _ => rfl) "A").1 (by decide)
